import Mathlib

/-!
Shallow embedding of the memory-capped LRU cache (package cache,
src/cache.go) and proofs about its operations.

Modelling conventions:
* the Go map `data map[string]*Entry` is an association list
  `List (String × Entry)`; keys are unique in every reachable state;
* the `container/list` recency list `lru` is a `List String`,
  head = front = most recently used, last = back = least recently used;
  the `listElement` back-pointer of an entry is represented by locating
  the entry's key in that list;
* `bytesReferenced` is a `Nat` kept below 2^64, with Go's `uint64`
  wraparound written out as `% U64`;
* `time.Time` is `Int`; `t.Before(u)` is `t < u`; the injectable clock
  value `c.clock.Now()` is passed to `Read` as an explicit `now`;
* the `*time.Ticker` field is abstracted to the Bool `ticker`
  (`true` iff the Go field is non-nil); the periodic body the eviction
  goroutine runs on each tick is `shrinkPass`.
-/

namespace MCache

/-- 2^64, the modulus of Go's uint64 arithmetic for `bytesReferenced`. -/
def U64 : Nat := 2 ^ 64

/-- An Entry represents a value in a Cache (src/cache.go): payload bytes
and absolute expiration instant. -/
structure Entry where
  data : List Nat
  expiration : Int
deriving DecidableEq

/-- A Cache (src/cache.go): key-to-entry map, recency list (front = most
recently used), the uint64 byte counter, and whether the eviction ticker
is non-nil. -/
structure Cache where
  data : List (String × Entry)
  lru : List String
  bytesReferenced : Nat
  ticker : Bool
deriving DecidableEq

/-- Go map lookup `c.data[key]` on the association-list model. -/
def lookupKey : List (String × Entry) → String → Option Entry
  | [], _ => none
  | (k₂, e) :: rest, k => if k₂ = k then some e else lookupKey rest k

/-- `entry.Update(value, expiration)` seen through the map: the entry bound
to `key` gets the new payload and expiration, in place. -/
def updateKey : List (String × Entry) → String → List Nat → Int → List (String × Entry)
  | [], _, _, _ => []
  | (k₂, e) :: rest, k, v, x =>
      if k₂ = k then (k₂, ⟨v, x⟩) :: rest else (k₂, e) :: updateKey rest k v x

/-- Go `delete(c.data, key)`: removes the binding of `key` (unique in
reachable states; the model removes the first occurrence). -/
def eraseKey : List (String × Entry) → String → List (String × Entry)
  | [], _ => []
  | (k₂, e) :: rest, k => if k₂ = k then rest else (k₂, e) :: eraseKey rest k

/-- `c.lru.MoveToFront(e.listElement)`: detach the element holding `k` and
reinsert it at the front. -/
def moveToFront (l : List String) (k : String) : List String := k :: l.erase k

/-- `len(entry.data)` for `entry := c.data[entryKey]`. A missing key cannot
arise in reachable states (the lru holds only keys of the map); the model
gives it length 0 where Go would dereference a nil pointer. -/
def entryLen (idx : List (String × Entry)) (k : String) : Nat :=
  match lookupKey idx k with
  | some e => e.data.length
  | none => 0

/-- `Cache.Read` (src/cache.go lines 57-77): miss returns nil; a hit whose
expiration is strictly before `now` is removed from both lru and map (its
bytes are not subtracted) and returns nil; otherwise the entry is moved to
the front of the lru and its payload returned. Returns the Go result
together with the updated cache. -/
def Read (c : Cache) (now : Int) (key : String) : Option (List Nat) × Cache :=
  match lookupKey c.data key with
  | none => (none, c)
  | some e =>
    if e.expiration < now then
      (none, { c with lru := c.lru.erase key, data := eraseKey c.data key })
    else
      (some e.data, { c with lru := moveToFront c.lru key })

/-- `Cache.Set` (src/cache.go lines 80-103): upsert. An existing key is
moved to the front of the lru and its entry updated in place, with no
change to `bytesReferenced`; a new key is pushed to the front, inserted
into the map, and its payload length added to `bytesReferenced`. -/
def Set (c : Cache) (key : String) (value : List Nat) (expiration : Int) : Cache :=
  match lookupKey c.data key with
  | some _ =>
      { c with lru := moveToFront c.lru key,
               data := updateKey c.data key value expiration }
  | none =>
      { c with lru := key :: c.lru,
               data := (key, ⟨value, expiration⟩) :: c.data,
               bytesReferenced := (c.bytesReferenced + value.length) % U64 }

/-- One shrink pass: the loop body the eviction goroutine runs on each tick
(src/cache.go lines 124-130). While `bytesReferenced > memoryLimit` and the
lru is non-empty: remove the back key from the lru, subtract that entry's
payload length (uint64 arithmetic) and delete it from the map. -/
def shrinkPass (c : Cache) (memoryLimit : Nat) : Cache :=
  if h : memoryLimit < c.bytesReferenced ∧ c.lru ≠ [] then
    shrinkPass
      { c with
        lru := c.lru.dropLast,
        data := eraseKey c.data (c.lru.getLast h.2),
        bytesReferenced :=
          (c.bytesReferenced + U64 - entryLen c.data (c.lru.getLast h.2) % U64) % U64 }
      memoryLimit
  else c
termination_by c.lru.length
decreasing_by
  simp only [List.length_dropLast]
  have := List.length_pos.mpr h.2
  omega

/-- `Cache.StartEviction` (src/cache.go lines 113-136): errors if the
ticker is already set, otherwise installs the ticker and spawns the
background task (whose per-tick body is `shrinkPass memoryLimit`). The
numeric arguments configure only the spawned goroutine, not the state
transition modelled here. -/
def StartEviction (c : Cache) (memoryLimit : Nat) (checkInterval : Nat) :
    Except String Cache :=
  if c.ticker then Except.error "Eviction has started, you must stopEviction"
  else Except.ok { c with ticker := true }

/-- `Cache.StopEviction` (src/cache.go lines 139-147): stop the ticker and
clear the field if it is set; otherwise do nothing. -/
def StopEviction (c : Cache) : Cache :=
  if c.ticker then { c with ticker := false } else c

/-- `NewCache` (src/cache.go lines 150-157). -/
def NewCache : Cache := { data := [], lru := [], bytesReferenced := 0, ticker := false }

/-- Modelled from the spec: `BytesReferenced` is exercised by the
repository's tests but its definition is not under src; the spec says it
returns the current tracked byte total. -/
def BytesReferenced (c : Cache) : Nat := c.bytesReferenced

/-- The keys of the map, in association-list order. -/
def keysOf (idx : List (String × Entry)) : List String := idx.map Prod.fst

/-- True total payload size: Σ len(entry.data) over the map. -/
def sumBytes (idx : List (String × Entry)) : Nat :=
  (idx.map (fun p => p.2.data.length)).sum

/-- Structural well-formedness of reachable cache states: unique map keys,
duplicate-free recency list, and the recency list holds exactly the keys of
the map (spec invariant 1). -/
def WF (c : Cache) : Prop :=
  (keysOf c.data).Nodup ∧ c.lru.Nodup ∧
    (∀ k ∈ c.lru, k ∈ keysOf c.data) ∧ ∀ k ∈ keysOf c.data, k ∈ c.lru

instance (c : Cache) : Decidable (WF c) := by unfold WF; infer_instance

/-- The byte-accounting invariant of the spec: the uint64 counter equals
the true sum of payload lengths, reduced mod 2^64. -/
def bytesInv (c : Cache) : Prop := c.bytesReferenced = sumBytes c.data % U64

instance (c : Cache) : Decidable (bytesInv c) := by unfold bytesInv; infer_instance

/-! Helper lemmas about the association-list map. -/

theorem lookupKey_updateKey_self (idx : List (String × Entry)) (k : String)
    (v : List Nat) (x : Int) :
    lookupKey (updateKey idx k v x) k = (lookupKey idx k).map fun _ => ⟨v, x⟩ := by
  induction idx with
  | nil => rfl
  | cons p rest ih =>
    obtain ⟨k₂, e⟩ := p
    by_cases hk : k₂ = k
    · simp [updateKey, lookupKey, hk]
    · simp [updateKey, lookupKey, hk, ih]

theorem eraseKey_of_lookup_none (idx : List (String × Entry)) (k : String)
    (h : lookupKey idx k = none) : eraseKey idx k = idx := by
  induction idx with
  | nil => rfl
  | cons p rest ih =>
    obtain ⟨k₂, e⟩ := p
    by_cases hk : k₂ = k
    · simp [lookupKey, hk] at h
    · simp only [lookupKey, hk, if_false, if_neg hk] at h ⊢
      simp [eraseKey, hk, ih h]

theorem sumBytes_cons (k : String) (e : Entry) (rest : List (String × Entry)) :
    sumBytes ((k, e) :: rest) = e.data.length + sumBytes rest := by
  simp [sumBytes]

theorem lookupKey_eq_none_of_not_mem (idx : List (String × Entry)) (k : String)
    (h : k ∉ keysOf idx) : lookupKey idx k = none := by
  induction idx with
  | nil => rfl
  | cons p rest ih =>
    obtain ⟨k₂, e⟩ := p
    simp only [keysOf, List.map_cons, List.mem_cons, not_or] at h
    have hne : ¬ k₂ = k := fun hh => h.1 hh.symm
    simp only [lookupKey, if_neg hne]
    exact ih h.2

theorem lookupKey_eraseKey_of_nodup (idx : List (String × Entry)) (k : String)
    (hnd : (keysOf idx).Nodup) : lookupKey (eraseKey idx k) k = none := by
  induction idx with
  | nil => rfl
  | cons p rest ih =>
    obtain ⟨k₂, e⟩ := p
    simp only [keysOf, List.map_cons, List.nodup_cons] at hnd
    by_cases hk : k₂ = k
    · subst hk
      simp only [eraseKey, if_pos rfl]
      exact lookupKey_eq_none_of_not_mem rest k₂ hnd.1
    · simp only [eraseKey, if_neg hk, lookupKey]
      exact ih hnd.2

theorem entryLen_le_sumBytes (idx : List (String × Entry)) (k : String)
    (e : Entry) (h : lookupKey idx k = some e) : e.data.length ≤ sumBytes idx := by
  induction idx with
  | nil => simp [lookupKey] at h
  | cons p rest ih =>
    obtain ⟨k₂, e₂⟩ := p
    by_cases hk : k₂ = k
    · simp only [lookupKey, if_pos hk] at h
      cases h
      simp [sumBytes_cons]
    · simp only [lookupKey, if_neg hk] at h
      have := ih h
      rw [sumBytes_cons]
      omega

theorem sumBytes_eraseKey (idx : List (String × Entry)) (k : String)
    (e : Entry) (h : lookupKey idx k = some e) :
    sumBytes (eraseKey idx k) = sumBytes idx - e.data.length := by
  induction idx with
  | nil => simp [lookupKey] at h
  | cons p rest ih =>
    obtain ⟨k₂, e₂⟩ := p
    by_cases hk : k₂ = k
    · simp only [lookupKey, if_pos hk] at h
      cases h
      simp [eraseKey, if_pos hk, sumBytes_cons]
    · simp only [lookupKey, if_neg hk] at h
      have hle := entryLen_le_sumBytes rest k e h
      have hih := ih h
      simp only [eraseKey, if_neg hk]
      rw [sumBytes_cons, sumBytes_cons, hih]
      omega

theorem keysOf_eraseKey (idx : List (String × Entry)) (k : String) :
    keysOf (eraseKey idx k) = (keysOf idx).erase k := by
  induction idx with
  | nil => rfl
  | cons p rest ih =>
    obtain ⟨k₂, e⟩ := p
    by_cases hk : k₂ = k
    · simp [eraseKey, hk, keysOf, List.erase_cons]
    · simp only [eraseKey, if_neg hk, keysOf, List.map_cons, List.erase_cons]
      have hbeq : (k₂ == k) = false := by simp [hk]
      rw [hbeq]
      simp only [Bool.false_eq_true, if_false, List.cons.injEq, true_and]
      simpa [keysOf] using ih

theorem keysOf_updateKey (idx : List (String × Entry)) (k : String)
    (v : List Nat) (x : Int) : keysOf (updateKey idx k v x) = keysOf idx := by
  induction idx with
  | nil => rfl
  | cons p rest ih =>
    obtain ⟨k₂, e⟩ := p
    by_cases hk : k₂ = k
    · simp [updateKey, hk, keysOf]
    · simp [updateKey, hk, keysOf] at ih ⊢
      exact ih

theorem lookupKey_set_self (c : Cache) (k : String) (v : List Nat) (x : Int) :
    lookupKey (Set c k v x).data k = some ⟨v, x⟩ := by
  unfold Set
  cases hl : lookupKey c.data k with
  | none => simp [lookupKey]
  | some e => simp [lookupKey_updateKey_self, hl]

/-! Unfolding lemmas for the three operation shapes. -/

theorem set_of_lookup_none (c : Cache) (k : String) (v : List Nat) (x : Int)
    (h : lookupKey c.data k = none) :
    Set c k v x = { c with lru := k :: c.lru,
                           data := (k, ⟨v, x⟩) :: c.data,
                           bytesReferenced := (c.bytesReferenced + v.length) % U64 } := by
  unfold Set
  rw [h]

theorem set_of_lookup_some (c : Cache) (k : String) (e : Entry) (v : List Nat) (x : Int)
    (h : lookupKey c.data k = some e) :
    Set c k v x = { c with lru := moveToFront c.lru k,
                           data := updateKey c.data k v x } := by
  unfold Set
  rw [h]

theorem read_miss (c : Cache) (now : Int) (k : String)
    (h : lookupKey c.data k = none) : Read c now k = (none, c) := by
  unfold Read
  rw [h]

theorem read_hit (c : Cache) (now : Int) (k : String) (e : Entry)
    (h : lookupKey c.data k = some e) (hx : ¬ e.expiration < now) :
    Read c now k = (some e.data, { c with lru := moveToFront c.lru k }) := by
  unfold Read
  rw [h]
  simp only [if_neg hx]

theorem read_expired (c : Cache) (now : Int) (k : String) (e : Entry)
    (h : lookupKey c.data k = some e) (hx : e.expiration < now) :
    Read c now k = (none, { c with lru := c.lru.erase k, data := eraseKey c.data k }) := by
  unfold Read
  rw [h]
  simp only [if_pos hx]

theorem stopEviction_ticker (c : Cache) : (StopEviction c).ticker = false := by
  unfold StopEviction
  by_cases hc : c.ticker <;> simp [hc]

/-! Lemmas about the shrink loop. -/

theorem U64_eq : U64 = 18446744073709551616 := by norm_num [U64]

theorem shrinkPass_step (c : Cache) (t : Nat) (h1 : t < c.bytesReferenced)
    (h2 : c.lru ≠ []) :
    shrinkPass c t =
      shrinkPass
        { c with lru := c.lru.dropLast,
                 data := eraseKey c.data (c.lru.getLast h2),
                 bytesReferenced :=
                   (c.bytesReferenced + U64 -
                     entryLen c.data (c.lru.getLast h2) % U64) % U64 } t := by
  conv_lhs => rw [shrinkPass]
  rw [dif_pos ⟨h1, h2⟩]

theorem shrinkPass_stop (c : Cache) (t : Nat)
    (h : c.bytesReferenced ≤ t ∨ c.lru = []) : shrinkPass c t = c := by
  have hn : ¬ (t < c.bytesReferenced ∧ c.lru ≠ []) := by
    rintro ⟨h1, h2⟩
    rcases h with h3 | h3
    · omega
    · exact h2 h3
  rw [shrinkPass, dif_neg hn]

theorem bytesInv_shrink_step (c : Cache) (k : String) (hinv : bytesInv c) :
    (c.bytesReferenced + U64 - entryLen c.data k % U64) % U64
      = sumBytes (eraseKey c.data k) % U64 := by
  have hinv₂ : c.bytesReferenced = sumBytes c.data % U64 := hinv
  cases hl : lookupKey c.data k with
  | none =>
    rw [eraseKey_of_lookup_none c.data k hl]
    simp only [entryLen, hl]
    rw [hinv₂, U64_eq]
    omega
  | some e =>
    simp only [entryLen, hl]
    rw [sumBytes_eraseKey c.data k e hl, hinv₂]
    have hle := entryLen_le_sumBytes c.data k e hl
    rw [U64_eq]
    omega

theorem bytesInv_shrinkPass (c : Cache) (t : Nat) (hinv : bytesInv c) :
    bytesInv (shrinkPass c t) := by
  revert hinv
  induction c, t using shrinkPass.induct with
  | case1 c t h ih =>
    intro hinv
    rw [shrinkPass, dif_pos h]
    exact ih (bytesInv_shrink_step c (c.lru.getLast h.2) hinv)
  | case2 c t h =>
    intro hinv
    rw [shrinkPass, dif_neg h]
    exact hinv

theorem wf_shrink_step (c : Cache) (h2 : c.lru ≠ []) (b : Nat) (hwf : WF c) :
    WF { c with lru := c.lru.dropLast,
                data := eraseKey c.data (c.lru.getLast h2),
                bytesReferenced := b } := by
  obtain ⟨hnd, hlnd, hforward, hback⟩ := hwf
  have hsplit : c.lru.dropLast ++ [c.lru.getLast h2] = c.lru :=
    List.dropLast_append_getLast h2
  have hlnd₂ : (c.lru.dropLast ++ [c.lru.getLast h2]).Nodup := by
    rw [hsplit]; exact hlnd
  rw [List.nodup_append] at hlnd₂
  refine ⟨?_, ?_, ?_, ?_⟩
  · show (keysOf (eraseKey c.data (c.lru.getLast h2))).Nodup
    rw [keysOf_eraseKey]
    exact hnd.erase _
  · exact (List.dropLast_sublist c.lru).nodup hlnd
  · intro j hj
    have hjk : j ≠ c.lru.getLast h2 := by
      intro heq
      exact hlnd₂.2.2 hj (by simp [heq])
    show j ∈ keysOf (eraseKey c.data (c.lru.getLast h2))
    rw [keysOf_eraseKey]
    refine (List.mem_erase_of_ne hjk).mpr ?_
    refine hforward j ?_
    rw [← hsplit]
    exact List.mem_append_left _ hj
  · intro j hj
    replace hj : j ∈ keysOf (eraseKey c.data (c.lru.getLast h2)) := hj
    rw [keysOf_eraseKey] at hj
    rw [hnd.mem_erase_iff] at hj
    have hmem := hback j hj.2
    rw [← hsplit] at hmem
    rcases List.mem_append.mp hmem with hmem | hmem
    · exact hmem
    · exact absurd (List.mem_singleton.mp hmem) hj.1

theorem wf_shrinkPass (c : Cache) (t : Nat) (hwf : WF c) : WF (shrinkPass c t) := by
  revert hwf
  induction c, t using shrinkPass.induct with
  | case1 c t h ih =>
    intro hwf
    rw [shrinkPass, dif_pos h]
    exact ih (wf_shrink_step c h.2 _ hwf)
  | case2 c t h =>
    intro hwf
    rw [shrinkPass, dif_neg h]
    exact hwf

theorem shrinkPass_post (c : Cache) (t : Nat) :
    (shrinkPass c t).bytesReferenced ≤ t ∨ (shrinkPass c t).lru = [] := by
  induction c, t using shrinkPass.induct with
  | case1 c t h ih =>
    rw [shrinkPass, dif_pos h]
    exact ih
  | case2 c t h =>
    rw [shrinkPass, dif_neg h]
    rcases Decidable.not_and_iff_or_not.mp h with h | h
    · exact Or.inl (by omega)
    · exact Or.inr (by simpa using h)

theorem shrinkPass_lru_suffix (c : Cache) (t : Nat) :
    ∃ tl, c.lru = (shrinkPass c t).lru ++ tl := by
  induction c, t using shrinkPass.induct with
  | case1 c t h ih =>
    rw [shrinkPass, dif_pos h]
    obtain ⟨tl, htl⟩ := ih
    refine ⟨tl ++ [c.lru.getLast h.2], ?_⟩
    conv_lhs => rw [← List.dropLast_append_getLast h.2]
    rw [← List.append_assoc, ← htl]
  | case2 c t h =>
    exact ⟨[], by rw [shrinkPass, dif_neg h, List.append_nil]⟩

theorem data_eq_nil_of_wf_lru_nil (d : Cache) (hwf : WF d) (h : d.lru = []) :
    d.data = [] := by
  cases hd : d.data with
  | nil => rfl
  | cons p rest =>
    have hmem : p.1 ∈ keysOf d.data := by rw [hd]; simp [keysOf]
    have := hwf.2.2.2 p.1 hmem
    rw [h] at this
    simp at this

/-! Claim theorems. -/

/-- C7: for every cache state, `Set(k, v, exp)` with `exp` strictly after
the current clock instant followed by `Read(k)` returns `v`; in particular
after two successive Sets of the same key the later payload is returned
(latest write wins). -/
theorem set_read_roundtrip :
    (∀ (c : Cache) (k : String) (v : List Nat) (x now : Int), now < x →
        (Read (Set c k v x) now k).1 = some v) ∧
    ∀ (c : Cache) (k : String) (v₁ v₂ : List Nat) (x₁ x₂ now : Int), now < x₂ →
        (Read (Set (Set c k v₁ x₁) k v₂ x₂) now k).1 = some v₂ := by
  have main : ∀ (c : Cache) (k : String) (v : List Nat) (x now : Int), now < x →
      (Read (Set c k v x) now k).1 = some v := by
    intro c k v x now hlt
    rw [read_hit (Set c k v x) now k ⟨v, x⟩ (lookupKey_set_self c k v x)
      (by simp only; omega)]
  exact ⟨main, fun c k v₁ v₂ x₁ x₂ now hlt => main (Set c k v₁ x₁) k v₂ x₂ now hlt⟩

/-- C7 witness: a concrete round trip and a concrete overwrite. -/
theorem set_read_roundtrip_witness :
    ((0 : Int) < 9 ∧ (Read (Set NewCache "a" [1] 9) 0 "a").1 = some [1]) ∧
    (0 : Int) < 9 ∧ (Read (Set (Set NewCache "a" [1] 7) "a" [2, 3] 9) 0 "a").1 = some [2, 3] :=
  ⟨⟨by decide, set_read_roundtrip.1 NewCache "a" [1] 9 0 (by decide)⟩,
    by decide, set_read_roundtrip.2 NewCache "a" [1] [2, 3] 7 9 0 (by decide)⟩

/-- C8: a Set of an already-present key replaces its payload and
expiration, moves it to the front of the recency list, and leaves
`bytesReferenced` unchanged whatever the two payload lengths; the payload
length is added (mod 2^64) only when the key is brand new. -/
theorem set_existing_frame :
    (∀ (c : Cache) (k : String) (e : Entry) (v₂ : List Nat) (x₂ : Int),
        lookupKey c.data k = some e →
          lookupKey (Set c k v₂ x₂).data k = some ⟨v₂, x₂⟩ ∧
          (Set c k v₂ x₂).lru = moveToFront c.lru k ∧
          (Set c k v₂ x₂).bytesReferenced = c.bytesReferenced) ∧
    ∀ (c : Cache) (k : String) (v : List Nat) (x : Int),
        lookupKey c.data k = none →
          (Set c k v x).bytesReferenced = (c.bytesReferenced + v.length) % U64 := by
  constructor
  · intro c k e v₂ x₂ h
    refine ⟨lookupKey_set_self c k v₂ x₂, ?_, ?_⟩ <;>
      rw [set_of_lookup_some c k e v₂ x₂ h]
  · intro c k v x h
    rw [set_of_lookup_none c k v x h]

/-- C8 witness: overwriting a 1-byte payload with a 3-byte payload leaves
the counter at 1, and the fresh insert added exactly 1 byte. -/
theorem set_existing_frame_witness :
    (lookupKey (Set NewCache "a" [5] 4).data "a" = some ⟨[5], 4⟩ ∧
      lookupKey (Set (Set NewCache "a" [5] 4) "a" [6, 7, 8] 9).data "a" = some ⟨[6, 7, 8], 9⟩ ∧
      (Set (Set NewCache "a" [5] 4) "a" [6, 7, 8] 9).lru =
        moveToFront (Set NewCache "a" [5] 4).lru "a" ∧
      (Set (Set NewCache "a" [5] 4) "a" [6, 7, 8] 9).bytesReferenced =
        (Set NewCache "a" [5] 4).bytesReferenced) ∧
    lookupKey NewCache.data "a" = none ∧
    (Set NewCache "a" [5] 4).bytesReferenced = (NewCache.bytesReferenced + [5].length) % U64 :=
  ⟨⟨by decide, set_existing_frame.1 (Set NewCache "a" [5] 4) "a" ⟨[5], 4⟩ [6, 7, 8] 9 (by decide)⟩,
    by decide, set_existing_frame.2 NewCache "a" [5] 4 (by decide)⟩

/-- C5: StartEviction errors exactly when a background task is already
active (and then changes nothing), a first StartEviction on a fresh cache
succeeds, StartEviction succeeds again after StopEviction, and StopEviction
is idempotent and a no-op when no task runs. -/
theorem eviction_lifecycle :
    (∀ (c : Cache) (ml ci : Nat),
        (∃ msg, StartEviction c ml ci = Except.error msg) ↔ c.ticker = true) ∧
    (∀ ml ci : Nat,
        StartEviction NewCache ml ci = Except.ok { NewCache with ticker := true }) ∧
    (∀ (c : Cache) (ml ci ml₂ ci₂ : Nat) (c₂ : Cache),
        StartEviction c ml ci = Except.ok c₂ →
          StartEviction c₂ ml₂ ci₂ =
            Except.error "Eviction has started, you must stopEviction") ∧
    (∀ (c : Cache) (ml ci : Nat),
        StartEviction (StopEviction c) ml ci =
          Except.ok { StopEviction c with ticker := true }) ∧
    (∀ c : Cache, StopEviction (StopEviction c) = StopEviction c) ∧
    ∀ c : Cache, c.ticker = false → StopEviction c = c := by
  refine ⟨?_, ?_, ?_, ?_, ?_, ?_⟩
  · intro c ml ci
    unfold StartEviction
    by_cases hc : c.ticker <;> simp [hc]
  · intro ml ci
    rfl
  · intro c ml ci ml₂ ci₂ c₂ h
    unfold StartEviction at h ⊢
    by_cases hc : c.ticker
    · simp [hc] at h
    · simp only [hc, if_neg, Bool.false_eq_true, if_false, Except.ok.injEq] at h
      rw [← h]
      simp
  · intro c ml ci
    unfold StartEviction
    simp [stopEviction_ticker]
  · intro c
    unfold StopEviction
    by_cases hc : c.ticker <;> simp [hc]
  · intro c hc
    unfold StopEviction
    simp [hc]

/-- C5 witness: concrete lifecycle facts obtained from the theorem. -/
theorem eviction_lifecycle_witness :
    StartEviction NewCache 5 1 = Except.ok { NewCache with ticker := true } ∧
    StartEviction { NewCache with ticker := true } 5 1 =
      Except.error "Eviction has started, you must stopEviction" ∧
    StopEviction (StopEviction { NewCache with ticker := true }) =
      StopEviction { NewCache with ticker := true } ∧
    NewCache.ticker = false ∧ StopEviction NewCache = NewCache :=
  ⟨eviction_lifecycle.2.1 5 1,
    eviction_lifecycle.2.2.1 NewCache 5 1 5 1 { NewCache with ticker := true }
      (eviction_lifecycle.2.1 5 1),
    eviction_lifecycle.2.2.2.2.1 { NewCache with ticker := true },
    by decide,
    eviction_lifecycle.2.2.2.2.2 NewCache (by decide)⟩

/-- C2: reading key "k" (payload of 2 bytes, expiration 10) at clock
instant 11 returns absent and removes the entry from both the map and the
recency list, but the tracked byte total stays at 2 instead of dropping by
the payload length: the expired branch of `Cache.Read` never subtracts the
purged entry's bytes. -/
theorem expired_read_leaks_bytes :
    (Read (Set NewCache "k" [3, 4] 10) 11 "k").1 = none ∧
    (Read (Set NewCache "k" [3, 4] 10) 11 "k").2.data = [] ∧
    (Read (Set NewCache "k" [3, 4] 10) 11 "k").2.lru = [] ∧
    BytesReferenced (Read (Set NewCache "k" [3, 4] 10) 11 "k").2 = 2 := by
  decide

/-- C4 counterexample: the entry stored with expiration 0 and read at
clock instant 0 (expiration exactly equal to the current time) is NOT
absent — `Cache.Read` only purges when the expiration is strictly before
the clock, so the claim fails at this input. -/
theorem read_at_exact_expiry_not_absent :
    ¬ (Read (Set NewCache "k" [7] 0) 0 "k").1 = none := by
  decide

/-- C4 amended: a present entry reads as absent (and is purged from the
map) exactly when its expiration is strictly before the current clock
instant; when the expiration equals the clock or is later, the payload is
still returned. -/
theorem read_expiry_boundary :
    ∀ (c : Cache) (now : Int) (k : String) (e : Entry),
      (keysOf c.data).Nodup →
      lookupKey c.data k = some e →
        (e.expiration < now →
            (Read c now k).1 = none ∧ lookupKey (Read c now k).2.data k = none) ∧
        (now ≤ e.expiration → (Read c now k).1 = some e.data) := by
  intro c now k e hnd h
  constructor
  · intro hx
    rw [read_expired c now k e h hx]
    exact ⟨rfl, lookupKey_eraseKey_of_nodup c.data k hnd⟩
  · intro hx
    rw [read_hit c now k e h (by omega)]

/-- C4 amended witness: both boundary behaviours at concrete inputs. -/
theorem read_expiry_boundary_witness :
    ((keysOf (Set NewCache "k" [7] 5).data).Nodup ∧
      lookupKey (Set NewCache "k" [7] 5).data "k" = some ⟨[7], 5⟩ ∧
      (5 : Int) < 6 ∧
      (Read (Set NewCache "k" [7] 5) 6 "k").1 = none ∧
      lookupKey (Read (Set NewCache "k" [7] 5) 6 "k").2.data "k" = none) ∧
    (5 : Int) ≤ 5 ∧ (Read (Set NewCache "k" [7] 5) 5 "k").1 = some [7] :=
  ⟨⟨by decide, by decide, by decide,
      (read_expiry_boundary (Set NewCache "k" [7] 5) 6 "k" ⟨[7], 5⟩
          (by decide) (by decide)).1 (by decide) |>.1,
      (read_expiry_boundary (Set NewCache "k" [7] 5) 6 "k" ⟨[7], 5⟩
          (by decide) (by decide)).1 (by decide) |>.2⟩,
    by decide,
    (read_expiry_boundary (Set NewCache "k" [7] 5) 5 "k" ⟨[7], 5⟩
        (by decide) (by decide)).2 (by decide)⟩

/-- C10 counterexample: after `Set("x", [1, 2], 5)` at clock instant 5
(expiration equal to the current time) the immediately following Read
still returns the payload, so the claim that it returns absent fails at
this input. -/
theorem set_at_expiry_get_not_absent :
    ¬ (Read (Set NewCache "x" [1, 2] 5) 5 "x").1 = none := by
  decide

/-- C10 amended: Set never validates the expiration: a brand-new key with
expiration at or before the clock is still inserted into the map and the
recency front, and its payload length still added (mod 2^64) to the byte
counter; the immediately following Read returns absent when the expiration
is strictly before the clock, but still returns the payload when the
expiration equals the clock. -/
theorem set_no_expiration_validation :
    ∀ (c : Cache) (k : String) (v : List Nat) (x now : Int),
      lookupKey c.data k = none → x ≤ now →
        (Set c k v x).data = (k, ⟨v, x⟩) :: c.data ∧
        (Set c k v x).lru = k :: c.lru ∧
        (Set c k v x).bytesReferenced = (c.bytesReferenced + v.length) % U64 ∧
        (x < now → (Read (Set c k v x) now k).1 = none) ∧
        (x = now → (Read (Set c k v x) now k).1 = some v) := by
  intro c k v x now h hx
  rw [set_of_lookup_none c k v x h]
  refine ⟨rfl, rfl, rfl, ?_, ?_⟩
  · intro hlt
    rw [read_expired _ now k ⟨v, x⟩ (by simp [lookupKey]) (by simpa using hlt)]
  · intro heq
    rw [read_hit _ now k ⟨v, x⟩ (by simp [lookupKey]) (by simp only; omega)]

/-- C10 amended witness: concrete instance with expiration strictly in the
past and one exactly at the clock. -/
theorem set_no_expiration_validation_witness :
    (lookupKey NewCache.data "y" = none ∧ (3 : Int) ≤ 4 ∧
      (Set NewCache "y" [8, 9] 3).data = ("y", ⟨[8, 9], 3⟩) :: NewCache.data ∧
      (Set NewCache "y" [8, 9] 3).lru = "y" :: NewCache.lru ∧
      (Set NewCache "y" [8, 9] 3).bytesReferenced =
        (NewCache.bytesReferenced + [8, 9].length) % U64 ∧
      ((3 : Int) < 4 → (Read (Set NewCache "y" [8, 9] 3) 4 "y").1 = none)) ∧
    (3 : Int) ≤ 3 ∧
    ((3 : Int) = 3 → (Read (Set NewCache "y" [8, 9] 3) 3 "y").1 = some [8, 9]) :=
  ⟨⟨by decide, by decide,
      (set_no_expiration_validation NewCache "y" [8, 9] 3 4 (by decide) (by decide)).1,
      (set_no_expiration_validation NewCache "y" [8, 9] 3 4 (by decide) (by decide)).2.1,
      (set_no_expiration_validation NewCache "y" [8, 9] 3 4 (by decide) (by decide)).2.2.1,
      (set_no_expiration_validation NewCache "y" [8, 9] 3 4 (by decide) (by decide)).2.2.2.1⟩,
    by decide,
    (set_no_expiration_validation NewCache "y" [8, 9] 3 3 (by decide) (by decide)).2.2.2.2⟩

/-- C1 counterexample: after `Set("k", 1 byte); Set("k", 2 bytes)` the
tracked total is still 1 while the true sum over the map is 2 — a Set that
overwrites an existing key never adjusts `bytesReferenced`, so the claimed
invariant fails after the second operation. -/
theorem bytes_accounting_counterexample :
    ¬ (Set (Set NewCache "k" [0] 5) "k" [0, 1] 5).bytesReferenced
        = sumBytes (Set (Set NewCache "k" [0] 5) "k" [0, 1] 5).data := by
  decide

/-- C1 amended: the accounting invariant `bytesReferenced = Σ len(data)
mod 2^64` holds of a new cache and is preserved by every Set of a key not
yet in the map, every Read that does not hit an expired entry, and every
shrink pass; it is not preserved by a Set that overwrites an existing key
with a payload of different length, nor by a Read that purges an expired
entry (whose bytes are never subtracted). -/
theorem bytes_accounting_preserved :
    bytesInv NewCache ∧
    (∀ (c : Cache) (k : String) (v : List Nat) (x : Int),
        bytesInv c → lookupKey c.data k = none → bytesInv (Set c k v x)) ∧
    (∀ (c : Cache) (now : Int) (k : String),
        bytesInv c → lookupKey c.data k = none → bytesInv (Read c now k).2) ∧
    (∀ (c : Cache) (now : Int) (k : String) (e : Entry),
        bytesInv c → lookupKey c.data k = some e → now ≤ e.expiration →
          bytesInv (Read c now k).2) ∧
    ∀ (c : Cache) (t : Nat), bytesInv c → bytesInv (shrinkPass c t) := by
  refine ⟨by decide, ?_, ?_, ?_, bytesInv_shrinkPass⟩
  · intro c k v x hinv h
    have hinv₂ : c.bytesReferenced = sumBytes c.data % U64 := hinv
    rw [set_of_lookup_none c k v x h]
    show (c.bytesReferenced + v.length) % U64
        = sumBytes ((k, ⟨v, x⟩) :: c.data) % U64
    rw [sumBytes_cons, hinv₂, U64_eq]
    simp only
    omega
  · intro c now k hinv h
    rw [read_miss c now k h]
    exact hinv
  · intro c now k e hinv h hx
    rw [read_hit c now k e h (by omega)]
    exact hinv

/-- C1 amended witness: the invariant carried through a fresh Set, a live
Read and a shrink pass at concrete inputs. -/
theorem bytes_accounting_preserved_witness :
    (bytesInv NewCache ∧ lookupKey NewCache.data "a" = none ∧
      bytesInv (Set NewCache "a" [5] 3)) ∧
    (bytesInv (Set NewCache "a" [5] 3) ∧
      lookupKey (Set NewCache "a" [5] 3).data "b" = none ∧
      bytesInv (Read (Set NewCache "a" [5] 3) 2 "b").2) ∧
    (lookupKey (Set NewCache "a" [5] 3).data "a" = some ⟨[5], 3⟩ ∧ (2 : Int) ≤ 3 ∧
      bytesInv (Read (Set NewCache "a" [5] 3) 2 "a").2) ∧
    bytesInv (shrinkPass (Set NewCache "a" [5] 3) 0) :=
  ⟨⟨bytes_accounting_preserved.1, by decide,
      bytes_accounting_preserved.2.1 NewCache "a" [5] 3
        bytes_accounting_preserved.1 (by decide)⟩,
    ⟨by decide, by decide,
      bytes_accounting_preserved.2.2.1 (Set NewCache "a" [5] 3) 2 "b"
        (by decide) (by decide)⟩,
    ⟨by decide, by decide,
      bytes_accounting_preserved.2.2.2.1 (Set NewCache "a" [5] 3) 2 "a" ⟨[5], 3⟩
        (by decide) (by decide) (by decide)⟩,
    bytes_accounting_preserved.2.2.2.2 (Set NewCache "a" [5] 3) 0 (by decide)⟩

/-- C3: a shrink pass is a no-op when the byte total is already within the
target or the recency list is empty; otherwise it evicts from the back of
the recency list only (the survivors are an initial segment of the
original recency order), and it terminates with the byte total at or below
the target or the cache empty. -/
theorem shrink_behaviour :
    ∀ (c : Cache) (t : Nat), WF c →
      ((c.bytesReferenced ≤ t ∨ c.lru = []) → shrinkPass c t = c) ∧
      ((shrinkPass c t).bytesReferenced ≤ t ∨ (shrinkPass c t).data = []) ∧
      ∃ tl, c.lru = (shrinkPass c t).lru ++ tl := by
  intro c t hwf
  refine ⟨shrinkPass_stop c t, ?_, shrinkPass_lru_suffix c t⟩
  rcases shrinkPass_post c t with h | h
  · exact Or.inl h
  · exact Or.inr (data_eq_nil_of_wf_lru_nil _ (wf_shrinkPass c t hwf) h)

/-- C3 witness: a two-entry cache shrunk to a 1-byte target. -/
theorem shrink_behaviour_witness :
    WF (Set (Set NewCache "a" [0] 5) "b" [1, 2] 5) ∧
    (((Set (Set NewCache "a" [0] 5) "b" [1, 2] 5).bytesReferenced ≤ 1 ∨
        (Set (Set NewCache "a" [0] 5) "b" [1, 2] 5).lru = []) →
      shrinkPass (Set (Set NewCache "a" [0] 5) "b" [1, 2] 5) 1 =
        Set (Set NewCache "a" [0] 5) "b" [1, 2] 5) ∧
    ((shrinkPass (Set (Set NewCache "a" [0] 5) "b" [1, 2] 5) 1).bytesReferenced ≤ 1 ∨
      (shrinkPass (Set (Set NewCache "a" [0] 5) "b" [1, 2] 5) 1).data = []) ∧
    ∃ tl, (Set (Set NewCache "a" [0] 5) "b" [1, 2] 5).lru =
      (shrinkPass (Set (Set NewCache "a" [0] 5) "b" [1, 2] 5) 1).lru ++ tl :=
  ⟨by decide, shrink_behaviour (Set (Set NewCache "a" [0] 5) "b" [1, 2] 5) 1 (by decide)⟩

theorem getLast_pair (a b : String) (h : [a, b] ≠ []) : [a, b].getLast h = b := rfl

/-- C6: a Read of a live key moves it to the front of the recency list;
hence after Set(a); Set(b); Read(a) a shrink pass whose target forces
exactly one eviction removes b and keeps a. -/
theorem recency_read_then_shrink :
    (∀ (c : Cache) (k : String) (e : Entry) (now : Int),
        lookupKey c.data k = some e → ¬ e.expiration < now →
          (Read c now k).2.lru = moveToFront c.lru k) ∧
    ∀ (a b : String) (va vb : List Nat) (ea eb now : Int) (t : Nat),
      a ≠ b → now ≤ ea → va.length ≤ t → t < va.length + vb.length →
      va.length + vb.length < U64 →
        (Read (Set (Set NewCache a va ea) b vb eb) now a).1 = some va ∧
        shrinkPass (Read (Set (Set NewCache a va ea) b vb eb) now a).2 t =
          { data := [(a, ⟨va, ea⟩)], lru := [a],
            bytesReferenced := va.length, ticker := false } := by
  constructor
  · intro c k e now h hx
    rw [read_hit c now k e h hx]
  · intro a b va vb ea eb now t hab hea hta htb hsum
    have hba : ¬ b = a := fun hh => hab hh.symm
    have h1 : Set NewCache a va ea =
        { data := [(a, ⟨va, ea⟩)], lru := [a],
          bytesReferenced := va.length, ticker := false } := by
      rw [set_of_lookup_none NewCache a va ea rfl]
      simp [NewCache, Nat.mod_eq_of_lt (show va.length < U64 by omega)]
    have h2 : Set (Set NewCache a va ea) b vb eb =
        { data := [(b, ⟨vb, eb⟩), (a, ⟨va, ea⟩)], lru := [b, a],
          bytesReferenced := va.length + vb.length, ticker := false } := by
      rw [h1, set_of_lookup_none _ b vb eb (by simp [lookupKey, hab])]
      simp [Nat.mod_eq_of_lt hsum]
    have h3 : Read (Set (Set NewCache a va ea) b vb eb) now a =
        (some va,
          { data := [(b, ⟨vb, eb⟩), (a, ⟨va, ea⟩)], lru := [a, b],
            bytesReferenced := va.length + vb.length, ticker := false }) := by
      rw [h2, read_hit _ now a ⟨va, ea⟩ (by simp [lookupKey, hba]) (by simp only; omega)]
      simp [moveToFront, List.erase_cons, hba]
    rw [h3]
    refine ⟨rfl, ?_⟩
    rw [shrinkPass_step _ t (by simpa using htb) (by simp)]
    have hsum₂ := hsum
    rw [U64_eq] at hsum₂
    have hb : (va.length + vb.length + U64 - vb.length % U64) % U64 = va.length := by
      rw [U64_eq]
      omega
    have hstop : va.length ≤ t := hta
    simp only [getLast_pair, List.dropLast, eraseKey, entryLen, lookupKey,
      if_pos, if_neg hba, hb]
    exact shrinkPass_stop _ t (Or.inl hstop)

/-- C6 witness: with keys "a" (1 byte, read last) and "b" (2 bytes), a
shrink to 1 byte evicts "b" and keeps "a". -/
theorem recency_read_then_shrink_witness :
    (lookupKey (Set NewCache "q" [4] 9).data "q" = some ⟨[4], 9⟩ ∧
      ¬ (Entry.mk [4] 9).expiration < (0 : Int) ∧
      (Read (Set NewCache "q" [4] 9) 0 "q").2.lru =
        moveToFront (Set NewCache "q" [4] 9).lru "q") ∧
    ("a" ≠ "b" ∧ (0 : Int) ≤ 5 ∧ [(0 : Nat)].length ≤ 1 ∧
      1 < [(0 : Nat)].length + [(1 : Nat), 2].length ∧
      [(0 : Nat)].length + [(1 : Nat), 2].length < U64) ∧
    (Read (Set (Set NewCache "a" [0] 5) "b" [1, 2] 5) 0 "a").1 = some [0] ∧
    shrinkPass (Read (Set (Set NewCache "a" [0] 5) "b" [1, 2] 5) 0 "a").2 1 =
      { data := [("a", ⟨[0], 5⟩)], lru := ["a"],
        bytesReferenced := [(0 : Nat)].length, ticker := false } :=
  ⟨⟨by decide, by decide,
      recency_read_then_shrink.1 (Set NewCache "q" [4] 9) "q" ⟨[4], 9⟩ 0
        (by decide) (by decide)⟩,
    ⟨by decide, by decide, by decide, by decide, by decide⟩,
    recency_read_then_shrink.2 "a" "b" [0] [1, 2] 5 5 0 1
      (by decide) (by decide) (by decide) (by decide) (by decide)⟩

end MCache
